import Mathlib

/-!
Verification of the release-automation helper (release-mcp-server).

Documents and file contents are modelled as `List Char`; the helpers below
mirror the parts of Go's `strings` package used by the source
(`strings.Index`, `strings.Split`, `strings.Join`, `strings.TrimSpace`,
`strings.ReplaceAll`, `strings.HasSuffix`).  Go maps that the source
iterates over are modelled as association lists in source insertion order.
-/

namespace ReleaseMCP

/-! ### Character-list machinery mirroring Go's strings package -/

/-- Go `strings.Index`: index of the first occurrence of `pat` in `s`,
`none` when `pat` does not occur. -/
def findIdx : List Char → List Char → Option Nat
  | [], pat => if pat.isPrefixOf ([] : List Char) then some 0 else none
  | s@(_ :: t), pat => if pat.isPrefixOf s then some 0 else (findIdx t pat).map (· + 1)

/-- `pat` occurs in `s` starting at index `i`. -/
def occursAt (s pat : List Char) (i : Nat) : Prop := pat <+: s.drop i

instance (s pat : List Char) (i : Nat) : Decidable (occursAt s pat i) :=
  inferInstanceAs (Decidable (pat <+: s.drop i))

/-- Go `strings.Split(s, "\n")`. -/
def splitNl : List Char → List (List Char)
  | [] => [[]]
  | c :: rest =>
    let r := splitNl rest
    if c = '\n' then [] :: r
    else (c :: r.headI) :: r.tail

/-- Go `strings.Join(lines, "\n")`. -/
def joinNl : List (List Char) → List Char
  | [] => []
  | [l] => l
  | l :: ls => l ++ '\n' :: joinNl ls

/-- ASCII whitespace, a faithful restriction of Go's `unicode.IsSpace` to the
characters that occur in the repository's configuration files. -/
def isSpaceCh (c : Char) : Bool :=
  c = ' ' || c = '\t' || c = '\n' || c = '\x0b' || c = '\x0c' || c = '\r'

/-- Go `strings.TrimSpace` (over ASCII whitespace). -/
def trimSpace (s : List Char) : List Char :=
  ((s.dropWhile isSpaceCh).reverse.dropWhile isSpaceCh).reverse

/-- Every `'\n'` in the list is immediately followed by `' '` (so in
particular the list does not end in `'\n'`). -/
def nlSp : List Char → Bool
  | [] => true
  | c :: t => ((c != '\n') || (t.head? == some ' ')) && nlSp t

/-- Go `strings.ReplaceAll(s, "next", rep)`: every non-overlapping
occurrence of `"next"` is replaced, scanning left to right. -/
def replaceNext (rep : List Char) : List Char → List Char
  | 'n' :: 'e' :: 'x' :: 't' :: rest => rep ++ replaceNext rep rest
  | c :: rest => c :: replaceNext rep rest
  | [] => []

/-! ### Embedding of the hack-repository tool (`createBranchConfig`,
`formatBranchYAML`, `updateKonfluxConfigs`, `updateRepoBranches`) -/

/-- The static `componentMapping` table: repository name to component name. -/
def componentMapping : String → Option String
  | "tektoncd-pipeline" => some "pipeline"
  | "tektoncd-chains" => some "chains"
  | "tektoncd-git-clone" => some "git-init"
  | "operator" => some "operator"
  | "pac-downstream" => some "pac"
  | "tektoncd-cli" => some "cli"
  | "tektoncd-hub" => some "hub"
  | "tektoncd-results" => some "results"
  | "tektoncd-triggers" => some "triggers"
  | "manual-approval-gate" => some "manual-approval-gate"
  | "tekton-caches" => some "cache"
  | "tektoncd-pruner" => some "pruner"
  | _ => none

/-- The static set of components whose branch name is the upstream version. -/
def specialComponents : String → Bool
  | "manual-approval-gate" => true
  | "cache" => true
  | "pruner" => true
  | _ => false

structure BranchConfig where
  bname : List Char
  upstream : List Char
  versions : List (List Char)
  deriving DecidableEq, Repr

/-- The `UpstreamConfig` map (component name to upstream version). -/
def lookupUV (uv : List (String × List Char)) (k : String) : Option (List Char) :=
  (uv.find? (fun p => p.1 = k)).map (·.2)

/-- `"release-v" + minor + ".x"`. -/
def relBranchName (minor : List Char) : List Char :=
  "release-v".toList ++ minor ++ ".x".toList

/-- `createBranchConfig` from the source. -/
def createBranchConfig (minorVersion : List Char) (repoName : String)
    (hasUpstream : Bool) (upstreamVersions : List (String × List Char)) : BranchConfig :=
  match componentMapping repoName with
  | none => ⟨relBranchName minorVersion, [], [minorVersion]⟩
  | some componentName =>
    if specialComponents componentName then
      match lookupUV upstreamVersions componentName with
      | some version => ⟨version, [], [minorVersion]⟩
      | none =>
        ⟨relBranchName minorVersion,
          if hasUpstream then (lookupUV upstreamVersions componentName).getD [] else [],
          [minorVersion]⟩
    else
      ⟨relBranchName minorVersion,
        if hasUpstream then (lookupUV upstreamVersions componentName).getD [] else [],
        [minorVersion]⟩

/-- `formatBranchYAML` from the source: the lines of the rendered branch
entry. -/
def formatBranchYAML (bc : BranchConfig) (ind : List Char) (hasPatches : Bool) :
    List (List Char) :=
  [ind ++ "- name: ".toList ++ bc.bname]
    ++ (if bc.upstream ≠ [] then [ind ++ "  upstream: ".toList ++ bc.upstream] else [])
    ++ (if hasPatches then [ind ++ "  patches: *patches".toList] else [])
    ++ [ind ++ "  versions:".toList]
    ++ bc.versions.map (fun v => ind ++ "    - \"".toList ++ v ++ ['"'])

/-- The document-side inputs of the per-file branch edit: the parsed
top-level `name` and the presence of `upstream` / `patches` keys, together
with the tool configuration (minor version and upstream-version map). -/
structure EditorConfig where
  minorVersion : List Char
  repoName : String
  hasUpstream : Bool
  hasPatches : Bool
  upstreamVersions : List (String × List Char)

/-- The rendered branch block (`branchYAML` in the source): the formatted
lines joined with `"\n"`, at two-space indentation. -/
def renderedBlock (cfg : EditorConfig) : List Char :=
  joinNl (formatBranchYAML
    (createBranchConfig cfg.minorVersion cfg.repoName cfg.hasUpstream cfg.upstreamVersions)
    "  ".toList cfg.hasPatches)

/-- The search pattern `"\nbranches:"`. -/
def nlBranches : List Char := '\n' :: "branches:".toList

/-- The pattern `"\n\n"` delimiting the end of the branches section. -/
def nlnl : List Char := ['\n', '\n']

/-- Go `strings.HasSuffix(s, "\n")`. -/
def hasNlSuffix (s : List Char) : Bool := s.getLast? = some '\n'

/-- Go `strings.HasSuffix(name, ".yaml")`. -/
def hasYamlSuffix (name : String) : Bool := ".yaml".toList.isSuffixOf name.toList

/-- The per-file branch-section edit performed by `updateRepoBranches`:
locate `"\nbranches:"`; if absent, append a fresh section at end of file
(ensuring a trailing newline); otherwise replace the text between the
header and the next `"\n\n"` (or end of file) with the fresh block. -/
def editDoc (cfg : EditorConfig) (content : List Char) : List Char :=
  let branchYAML := renderedBlock cfg
  match findIdx content nlBranches with
  | none =>
    let c₁ := if hasNlSuffix content then content else content ++ ['\n']
    c₁ ++ "branches:".toList ++ '\n' :: branchYAML
  | some branchesStart =>
    let contentAfterBranches := content.drop (branchesStart + 1)
    let nextSection := (findIdx contentAfterBranches nlnl).getD contentAfterBranches.length
    content.take (branchesStart + 1) ++ "branches:".toList ++ '\n' :: branchYAML
      ++ content.drop (branchesStart + nextSection + 1)

/-- Number of `branches:` headers that start a line (position 0 or preceded
by a newline): occurrences of `"\nbranches:"` in `'\n' :: s`. -/
def sectionCount (s : List Char) : Nat :=
  ((Finset.range (s.length + 1)).filter (fun i => occursAt ('\n' :: s) nlBranches i)).card

/-- One directory entry of `config/konflux/repos`, with the outcome of
parsing it as YAML: whether `yaml.Unmarshal` succeeds, and the top-level
`name` (when present and a string), `upstream` and `patches` keys. -/
structure RepoFile where
  fname : String
  isDir : Bool
  parseOk : Bool
  nameField : Option String
  hasUpstream : Bool
  hasPatches : Bool
  content : List Char

inductive ScanError where
  /-- `yaml.Unmarshal` failed; `updateRepoBranches` returns the error. -/
  | parseFailure
  /-- the `yamlData["name"].(string)` type assertion failed (missing or
  non-string `name`), which panics. -/
  | namePanic
  deriving DecidableEq, Repr

def isYamlEntry (f : RepoFile) : Bool := !f.isDir && hasYamlSuffix f.fname

/-- `updateRepoBranches` over the entries of the repos directory: each
`.yaml` file is read, parsed, edited and written back in order; a parse
failure (or name-assertion panic) stops the scan, leaving the writes already
made in place.  Returns the list of (file name, new content) writes and the
error, if any, that ended the scan. -/
def updateRepoBranches (minorVersion : List Char)
    (upstreamVersions : List (String × List Char)) :
    List RepoFile → List (String × List Char) × Option ScanError
  | [] => ([], none)
  | f :: rest =>
    if isYamlEntry f then
      if f.parseOk then
        match f.nameField with
        | some nm =>
          let newContent :=
            editDoc ⟨minorVersion, nm, f.hasUpstream, f.hasPatches, upstreamVersions⟩ f.content
          let r := updateRepoBranches minorVersion upstreamVersions rest
          ((f.fname, newContent) :: r.1, r.2)
        | none => ([], some .namePanic)
      else ([], some .parseFailure)
    else updateRepoBranches minorVersion upstreamVersions rest

/-- One directory entry of `config/konflux`, as seen by
`updateKonfluxConfigs`. -/
structure DirEntry where
  ename : String
  isDir : Bool
  content : List Char
  deriving DecidableEq, Repr

/-- `updateKonfluxConfigs`: every non-directory `.yaml` entry has all
occurrences of `"next"` in its content replaced by the minor version. -/
def updateKonfluxConfigs (minorVersion : List Char) (entries : List DirEntry) :
    List DirEntry :=
  entries.map (fun e =>
    if !e.isDir && hasYamlSuffix e.ename then
      { e with content := replaceNext minorVersion e.content }
    else e)

/-! ### Embedding of the release-plan tool (`getReleaseType`, `createRPAs`,
`createRPs`, `updateKustomization`) -/

/-- `getReleaseType` from the source: release type and full version from a
minor/patch pair. -/
def getReleaseType (minorVersion patchVersion : String) : String × String :=
  if patchVersion ≠ "" then ("RHBA", minorVersion ++ "." ++ patchVersion)
  else ("RHEA", minorVersion ++ ".0")

structure ComponentConfig where
  cname : String
  repository : String
  deriving DecidableEq, Repr

/-- `RPAConfig` from the source.  The Go `Components` map is modelled as an
association list in the insertion order of the literal in the tool handler
(Go map iteration order is unspecified; the list fixes one order). -/
structure RPAConfig where
  minorVersion : String
  patchVersion : String
  components : List (String × List ComponentConfig)
  environments : List String
  ocpVersions : List String

/-- The RPA file name chosen by `createRPAs` for one component group and
environment (`isFBC` is `componentName == "fbc"`). -/
def rpaFileName (minorVersion componentName env : String) : String :=
  if componentName = "fbc" then
    "openshift-pipelines-" ++ minorVersion ++ "-fbc-" ++ env ++ ".yaml"
  else
    "openshift-pipelines-" ++ componentName ++ "-" ++ minorVersion ++ "-" ++ env ++ ".yaml"

/-- The files written by `createRPAs`: one ReleasePlanAdmission per
component group per environment. -/
def rpaFileNames (c : RPAConfig) : List String :=
  c.components.flatMap (fun g =>
    c.environments.map (fun env => rpaFileName c.minorVersion g.1 env))

/-- The RP file name chosen by `createRPs` for one component group and
environment.  Note the loop in `createRPs` ranges over every group,
including `fbc`. -/
def rpFileName (minorVersion componentName env : String) : String :=
  "openshift-pipelines-" ++ componentName ++ "-" ++ minorVersion ++ "-" ++ env
    ++ "-release-as-op.yaml"

/-- The files written by `createRPs`: one ReleasePlan per component group
per environment, with no exclusion of the `fbc` group. -/
def rpFileNames (c : RPAConfig) : List String :=
  c.components.flatMap (fun g =>
    c.environments.map (fun env => rpFileName c.minorVersion g.1 env))

/-- The `newResources` lines built by `updateKustomization`. -/
def newResourceLines (c : RPAConfig) : List (List Char) :=
  c.components.flatMap (fun g =>
    c.environments.map (fun env =>
      ("  - " ++ rpFileName c.minorVersion g.1 env).toList))

def resourcesLit : List Char := "resources:".toList

/-- The content transformation of `updateKustomization`: split on newlines,
insert the new resource lines after every line whose trimmed form is
`resources:`, or append a fresh `resources:` block when no such line
exists, and join back with newlines. -/
def updateKustomizationContent (c : RPAConfig) (content : List Char) : List Char :=
  let ls := splitNl content
  if ls.any (fun l => trimSpace l = resourcesLit) then
    joinNl (ls.flatMap (fun l =>
      if trimSpace l = resourcesLit then l :: newResourceLines c else [l]))
  else
    joinNl (ls ++ [resourcesLit, []] ++ newResourceLines c)

/-- The component-group table of the `create-release-plans` handler, in
source insertion order. -/
def handlerComponents : List (String × List ComponentConfig) :=
  [("cli", [⟨"tkn", "pipelines-cli-tkn-rhel9"⟩]),
   ("core", [⟨"controller", "pipelines-core-controller-rhel9"⟩,
             ⟨"webhook", "pipelines-core-webhook-rhel9"⟩]),
   ("operator", [⟨"operator", "pipelines-rhel9-operator"⟩,
                 ⟨"proxy", "pipelines-operator-proxy-rhel9"⟩,
                 ⟨"webhook", "pipelines-operator-webhook-rhel9"⟩]),
   ("fbc", [])]

def defaultOCPVersions : List String := ["4-15", "4-16", "4-17", "4-18", "4-19"]

def handlerEnvironments : List String := ["stage", "prod"]

/-- The `RPAConfig` assembled by the `create-release-plans` handler. -/
def handlerRPAConfig (minorVersion patchVersion : String) (ocpVersions : List String) :
    RPAConfig :=
  ⟨minorVersion, patchVersion, handlerComponents, handlerEnvironments, ocpVersions⟩

/-! ### Embedding of the tool-registration layer (`tools.Add`) -/

/-- A decoded JSON argument value, as far as the handlers inspect it. -/
inductive ArgValue where
  | str (s : String)
  | arr (l : List ArgValue)
  | obj (m : List (String × ArgValue))
  | other
  deriving Repr

abbrev Args := List (String × ArgValue)

/-- `params.Arguments[k].(string)`: the value of `k` when present and a
string, otherwise `none`. -/
def getStringArg (args : Args) (k : String) : Option String :=
  match args.find? (fun p => p.1 = k) with
  | some (_, .str s) => some s
  | _ => none

/-- The shared validation prologue of all three tool handlers:
`minorVersion, ok := params.Arguments["minor_version"].(string);
if !ok || minorVersion == "" { return nil, fmt.Errorf(...) }`.
Returning a Go `error` from the handler surfaces as a protocol-level error. -/
def extractMinorVersion (args : Args) : Except String String :=
  match getStringArg args "minor_version" with
  | some m => if m = "" then .error "minor_version parameter is required" else .ok m
  | none => .error "minor_version parameter is required"

/-- The `create-release-branches` handler, with its effectful body
abstracted as `body`: validation runs first, and on failure the body (the
only place that spawns processes or touches files) is never reached. -/
def branchHandler {α : Type} (body : String → α) (args : Args) : Except String α :=
  match extractMinorVersion args with
  | .error e => .error e
  | .ok m => .ok (body m)

/-- The `configure-hack-repo` handler: after validation it extracts the
optional `ocp_version` string and the `upstream_versions` string map, then
runs its effectful body. -/
def hackHandler {α : Type} (body : String → String → List (String × String) → α)
    (args : Args) : Except String α :=
  match extractMinorVersion args with
  | .error e => .error e
  | .ok m =>
    let ocpVersion := (getStringArg args "ocp_version").getD ""
    let upstreamVersions :=
      match args.find? (fun p => p.1 = "upstream_versions") with
      | some (_, .obj kvs) =>
        kvs.filterMap (fun p =>
          match p.2 with
          | .str v => some (p.1, v)
          | _ => none)
      | _ => []
    .ok (body m ocpVersion upstreamVersions)

/-- The `create-release-plans` handler: after validation it extracts the
optional `patch_version` and `ocp_versions` (defaulting to the fixed
five-element list), then runs its effectful body. -/
def releasePlanHandler {α : Type} (body : String → String → List String → α)
    (args : Args) : Except String α :=
  match extractMinorVersion args with
  | .error e => .error e
  | .ok m =>
    let patchVersion := (getStringArg args "patch_version").getD ""
    let fromArgs :=
      match args.find? (fun p => p.1 = "ocp_versions") with
      | some (_, .arr vs) =>
        vs.filterMap (fun v => match v with | .str s => some s | _ => none)
      | _ => []
    let ocpVersions := if fromArgs = [] then defaultOCPVersions else fromArgs
    .ok (body m patchVersion ocpVersions)

def badRepoFile : RepoFile :=
  ⟨"bad.yaml", false, false, none, false, false, "x: [\n".toList⟩

def goodRepoFile : RepoFile :=
  ⟨"good.yaml", false, true, some "tektoncd-cli", true, false, "name: tektoncd-cli\n".toList⟩

/-- The rendered block is well behaved as long as the configuration strings
contain no newline: the version strings and upstream versions supplied by
the caller, and the minor version, are then single-line. -/
def cfgNlFree (cfg : EditorConfig) : Prop :=
  '\n' ∉ cfg.minorVersion ∧ ∀ p ∈ cfg.upstreamVersions, '\n' ∉ p.2

instance (cfg : EditorConfig) : Decidable (cfgNlFree cfg) := by
  unfold cfgNlFree
  infer_instance

/-- The next-section boundary used by the replacement: the index just past
the first `"\n\n"` after the header (end of document when there is none). -/
def sectionEnd (doc : List Char) (p : Nat) : Nat :=
  p + ((findIdx (doc.drop (p + 1)) nlnl).getD (doc.drop (p + 1)).length) + 1

def demoEditorConfig : EditorConfig :=
  ⟨"1.19".toList, "tektoncd-pipeline", true, true, [("pipeline", "0.65.x".toList)]⟩

def demoUnknownConfig : EditorConfig := ⟨"1.19".toList, "not-a-known-repo", false, false, []⟩

/-! ### Theorems -/

theorem occursAt_cons_succ {c : Char} {s pat : List Char} {i : Nat} :
    occursAt (c :: s) pat (i + 1) ↔ occursAt s pat i := Iff.rfl

theorem findIdx_none_iff {s pat : List Char} :
    findIdx s pat = none ↔ ∀ i, ¬ occursAt s pat i := by
  induction s with
  | nil =>
    simp only [findIdx, List.isPrefixOf_iff_prefix, occursAt, List.drop_nil]
    split
    · simp_all
    · simp_all
  | cons c t ih =>
    simp only [findIdx, List.isPrefixOf_iff_prefix]
    split
    · rename_i h
      simp only [reduceCtorEq, false_iff, not_forall, not_not]
      exact ⟨0, h⟩
    · rename_i h
      simp only [Option.map_eq_none', ih]
      constructor
      · intro hall i
        cases i with
        | zero => exact h
        | succ j => exact hall j
      · intro hall i
        exact hall (i + 1)

theorem findIdx_some_iff {s pat : List Char} {n : Nat} :
    findIdx s pat = some n ↔ occursAt s pat n ∧ ∀ i < n, ¬ occursAt s pat i := by
  induction s generalizing n with
  | nil =>
    simp only [findIdx, List.isPrefixOf_iff_prefix, occursAt, List.drop_nil]
    split
    · rename_i h
      constructor
      · rintro ⟨rfl⟩
        exact ⟨h, by omega⟩
      · rintro ⟨-, hmin⟩
        by_contra hne
        have h0 : 0 < n := by
          cases n with
          | zero => simp_all
          | succ m => omega
        exact hmin 0 h0 h
    · rename_i h
      simp only [reduceCtorEq, false_iff, not_and]
      intro hocc
      exact absurd hocc h
  | cons c t ih =>
    simp only [findIdx, List.isPrefixOf_iff_prefix]
    split
    · rename_i h
      constructor
      · rintro ⟨rfl⟩
        exact ⟨h, by omega⟩
      · rintro ⟨-, hmin⟩
        by_contra hne
        have h0 : 0 < n := by
          cases n with
          | zero => simp_all
          | succ m => omega
        exact absurd h (hmin 0 h0)
    · rename_i h
      constructor
      · intro hmap
        obtain ⟨m, hm, rfl⟩ := Option.map_eq_some'.mp hmap
        obtain ⟨hocc, hmin⟩ := ih.mp hm
        refine ⟨hocc, ?_⟩
        intro i hi
        cases i with
        | zero => exact h
        | succ j => exact hmin j (by omega)
      · rintro ⟨hocc, hmin⟩
        cases n with
        | zero => exact absurd hocc h
        | succ m =>
          have : findIdx t pat = some m :=
            ih.mpr ⟨hocc, fun i hi => hmin (i + 1) (by omega)⟩
          simp [this]

theorem occursAt_length_le {s pat : List Char} {i : Nat} (hp : pat ≠ [])
    (h : occursAt s pat i) : i + pat.length ≤ s.length := by
  have hlen := h.length_le
  simp only [List.length_drop] at hlen
  have hi : i ≤ s.length := by
    by_contra hgt
    have hdrop : s.drop i = [] := List.drop_eq_nil_of_le (by omega)
    simp only [occursAt, hdrop, List.prefix_nil] at h
    exact hp h
  omega

theorem occursAt_getElem {s pat : List Char} {i : Nat} (h : occursAt s pat i)
    (k : Nat) (hk : k < pat.length) : s[i + k]? = pat[k]? := by
  obtain ⟨t, ht⟩ := h
  have : (s.drop i)[k]? = pat[k]? := by
    rw [← ht, List.getElem?_append, if_pos hk]
  rwa [List.getElem?_drop] at this

/-- An occurrence that fits inside the left part of an append is an
occurrence in that left part. -/
theorem occursAt_of_append_left {x y pat : List Char} {i : Nat}
    (hlen : i + pat.length ≤ x.length) (h : occursAt (x ++ y) pat i) :
    occursAt x pat i := by
  simp only [occursAt, List.drop_append_of_le_length (show i ≤ x.length by omega)] at h
  have hlen2 : pat.length ≤ (x.drop i).length := by
    simp only [List.length_drop]
    omega
  have hpat : pat = (x.drop i).take pat.length := by
    conv_lhs => rw [List.prefix_iff_eq_take.mp h]
    rw [List.take_append_eq_append_take]
    have hz : pat.length - (x.drop i).length = 0 := by omega
    simp only [hz, List.take_zero, List.append_nil]
  rw [occursAt, hpat]
  exact List.take_prefix _ _

/-- An occurrence in the left part of an append is an occurrence in the
whole. -/
theorem occursAt_append_of_occursAt {x y pat : List Char} {i : Nat}
    (h : occursAt x pat i) : occursAt (x ++ y) pat i := by
  by_cases hi : i ≤ x.length
  · simp only [occursAt, List.drop_append_of_le_length hi]
    exact h.trans (List.prefix_append _ _)
  · have hdrop : x.drop i = [] := List.drop_eq_nil_of_le (by omega)
    simp only [occursAt, hdrop, List.prefix_nil] at h
    simp [occursAt, h]

/-- An occurrence inside a prefix of `s` is an occurrence in `s`. -/
theorem occursAt_of_pfx {x s pat : List Char} {i : Nat}
    (hx : x <+: s) (h : occursAt x pat i) : occursAt s pat i := by
  obtain ⟨t, rfl⟩ := hx
  exact occursAt_append_of_occursAt h

theorem splitNl_ne_nil (s : List Char) : splitNl s ≠ [] := by
  cases s with
  | nil => simp [splitNl]
  | cons c rest =>
    simp only [splitNl]
    split <;> simp

theorem mem_splitNl_not_mem_nl {s : List Char} : ∀ l ∈ splitNl s, '\n' ∉ l := by
  induction s with
  | nil => simp [splitNl]
  | cons c rest ih =>
    simp only [splitNl]
    split
    · rename_i hc
      intro l hl
      rcases List.mem_cons.mp hl with rfl | hl
      · simp
      · exact ih l hl
    · rename_i hc
      intro l hl
      rcases List.mem_cons.mp hl with rfl | hl
      · intro hmem
        rcases List.mem_cons.mp hmem with rfl | hmem
        · exact hc rfl
        · obtain ⟨r0, rs, hr⟩ := List.exists_cons_of_ne_nil (splitNl_ne_nil rest)
          refine ih r0 ?_ ?_
          · rw [hr]; exact List.mem_cons_self _ _
          · rw [hr] at hmem
            simpa using hmem
      · obtain ⟨r0, rs, hr⟩ := List.exists_cons_of_ne_nil (splitNl_ne_nil rest)
        refine ih l ?_
        rw [hr]
        rw [hr] at hl
        simp only [List.tail_cons] at hl
        exact List.mem_cons_of_mem _ hl

theorem splitNl_of_not_mem {l : List Char} (h : '\n' ∉ l) : splitNl l = [l] := by
  induction l with
  | nil => rfl
  | cons c rest ih =>
    have hc : c ≠ '\n' := by
      intro hc
      exact h (by simp [hc])
    have hrest : '\n' ∉ rest := fun hm => h (List.mem_cons_of_mem _ hm)
    simp [splitNl, hc, ih hrest]

theorem splitNl_append_nl {l r : List Char} (h : '\n' ∉ l) :
    splitNl (l ++ '\n' :: r) = l :: splitNl r := by
  induction l with
  | nil => simp [splitNl]
  | cons c rest ih =>
    have hc : c ≠ '\n' := by
      intro hc
      exact h (by simp [hc])
    have hrest : '\n' ∉ rest := fun hm => h (List.mem_cons_of_mem _ hm)
    rw [List.cons_append]
    simp only [splitNl, hc, if_false, ih hrest]
    simp

theorem splitNl_joinNl {L : List (List Char)} (hne : L ≠ [])
    (h : ∀ l ∈ L, '\n' ∉ l) : splitNl (joinNl L) = L := by
  induction L with
  | nil => exact absurd rfl hne
  | cons l ls ih =>
    cases ls with
    | nil =>
      show splitNl (joinNl [l]) = [l]
      rw [show joinNl [l] = l from rfl]
      exact splitNl_of_not_mem (h l (List.mem_cons_self _ _))
    | cons l₂ ls₂ =>
      show splitNl (l ++ '\n' :: joinNl (l₂ :: ls₂)) = l :: l₂ :: ls₂
      rw [splitNl_append_nl (h l (List.mem_cons_self _ _))]
      rw [ih (by simp) (fun x hx => h x (List.mem_cons_of_mem _ hx))]

theorem dropWhile_append_singleton {p : Char → Bool} {a : Char} (ha : p a = false) :
    ∀ xs : List Char, ∃ ys, List.dropWhile p (xs ++ [a]) = ys ++ [a] := by
  intro xs
  induction xs with
  | nil => exact ⟨[], by simp [List.dropWhile, ha]⟩
  | cons x xs ih =>
    by_cases hx : p x
    · obtain ⟨ys, hy⟩ := ih
      exact ⟨ys, by simp [List.dropWhile, hx, hy]⟩
    · exact ⟨x :: (xs ++ [a]).dropLast,
        by
          simp only [List.cons_append, List.dropWhile_cons, hx, if_false, Bool.false_eq_true]
          simp⟩

theorem trimSpace_dash_cons (t : List Char) :
    ∃ ys, trimSpace (' ' :: ' ' :: '-' :: ' ' :: t) = '-' :: ys := by
  have h1 : List.dropWhile isSpaceCh (' ' :: ' ' :: '-' :: ' ' :: t) = '-' :: ' ' :: t := by
    simp [List.dropWhile, isSpaceCh]
  have h2 : ('-' :: ' ' :: t).reverse = (' ' :: t).reverse ++ ['-'] := by simp
  obtain ⟨ys, hy⟩ :=
    dropWhile_append_singleton (p := isSpaceCh) (a := '-') (by simp [isSpaceCh])
      (' ' :: t).reverse
  refine ⟨ys.reverse, ?_⟩
  rw [trimSpace, h1, h2, hy]
  simp

theorem nlSp_next {s : List Char} (h : nlSp s = true) :
    ∀ k, s[k]? = some '\n' → s[k + 1]? = some ' ' := by
  induction s with
  | nil => intro k hk; simp at hk
  | cons c t ih =>
    simp only [nlSp, Bool.and_eq_true, Bool.or_eq_true] at h
    obtain ⟨hc, ht⟩ := h
    intro k hk
    cases k with
    | zero =>
      simp only [List.getElem?_cons_zero, Option.some.injEq] at hk
      subst hk
      rcases hc with hc | hc
      · simp at hc
      · have : t.head? = some ' ' := by simpa using hc
        cases t with
        | nil => simp at this
        | cons d t' =>
          simp only [List.head?_cons, Option.some.injEq] at this
          simp [this]
    | succ j =>
      simp only [List.getElem?_cons_succ] at hk ⊢
      exact ih ht j hk

theorem nlSp_of_not_mem {s : List Char} (h : '\n' ∉ s) : nlSp s = true := by
  induction s with
  | nil => rfl
  | cons c t ih =>
    have hc : c ≠ '\n' := fun hc => h (by simp [hc])
    have ht : '\n' ∉ t := fun hm => h (List.mem_cons_of_mem _ hm)
    simp [nlSp, hc, ih ht]

theorem nlSp_append_nl {l r : List Char} (hl : '\n' ∉ l)
    (hr0 : r.head? = some ' ') (hr : nlSp r = true) : nlSp (l ++ '\n' :: r) = true := by
  induction l with
  | nil => simp [nlSp, hr0, hr]
  | cons c l' ih =>
    have hc : c ≠ '\n' := fun hc => hl (by simp [hc])
    have hl' : '\n' ∉ l' := fun hm => hl (List.mem_cons_of_mem _ hm)
    simp only [List.cons_append, nlSp, Bool.and_eq_true, Bool.or_eq_true]
    exact ⟨Or.inl (by simp [hc]), ih hl'⟩

/-! ### Generic counting helpers -/

theorem flatMap_map_length {β γ δ : Type} (L : List β) (envs : List γ) (f : β → γ → δ) :
    (L.flatMap (fun g => envs.map (f g))).length = L.length * envs.length := by
  induction L with
  | nil => simp
  | cons g gs ih => simp [ih, Nat.succ_mul, Nat.add_comm]

/-! ### Claim theorems -/

/-- C7: when the document's top-level name maps to a component in the
special set and the upstream-version map supplies a version for that
component, the produced branch entry's name is that literal version
string, not `release-v{minor}.x`. -/
theorem special_component_override
    (minorVersion : List Char) (repoName componentName : String) (hasUpstream : Bool)
    (uv : List (String × List Char)) (version : List Char)
    (hmap : componentMapping repoName = some componentName)
    (hspecial : specialComponents componentName = true)
    (huv : lookupUV uv componentName = some version) :
    (createBranchConfig minorVersion repoName hasUpstream uv).bname = version := by
  unfold createBranchConfig
  rw [hmap]
  simp [hspecial, huv]

theorem special_component_override_witness :
    componentMapping "tekton-caches" = some "cache"
    ∧ specialComponents "cache" = true
    ∧ lookupUV [("cache", "release-v0.1.x".toList)] "cache" = some "release-v0.1.x".toList
    ∧ (createBranchConfig "1.19".toList "tekton-caches" false
        [("cache", "release-v0.1.x".toList)]).bname = "release-v0.1.x".toList :=
  ⟨by decide, by decide, by decide,
    special_component_override "1.19".toList "tekton-caches" "cache" false
      [("cache", "release-v0.1.x".toList)] "release-v0.1.x".toList
      (by decide) (by decide) (by decide)⟩

/-- C8: the version resolver is a total pure function: a non-empty
patch yields `RHBA` and `minor ++ "." ++ patch`; an empty patch yields
`RHEA` and `minor ++ ".0"`; any strings are accepted verbatim. -/
theorem release_type_resolver (minorVersion patchVersion : String) :
    (patchVersion ≠ "" →
      getReleaseType minorVersion patchVersion
        = ("RHBA", minorVersion ++ "." ++ patchVersion))
    ∧ (patchVersion = "" →
      getReleaseType minorVersion patchVersion = ("RHEA", minorVersion ++ ".0")) := by
  refine ⟨fun h => ?_, fun h => ?_⟩ <;> simp [getReleaseType, h]

theorem release_type_resolver_witness :
    ("3" ≠ "" ∧ getReleaseType "1.19" "3" = ("RHBA", "1.19.3"))
    ∧ getReleaseType "1.19" "" = ("RHEA", "1.19.0") := by
  refine ⟨⟨by decide, ?_⟩, ?_⟩
  · have h := (release_type_resolver "1.19" "3").1 (by decide)
    rw [h]
    decide
  · have h := (release_type_resolver "1.19" "").2 rfl
    rw [h]
    decide

/-- C9: invoking any of the three tool operations without a non-empty
string `minor_version` yields a protocol-level error (the handler returns a
Go `error`), and the effectful body — the only place that spawns external
processes or writes files — contributes nothing to the result: the outcome
is the same error for every possible body. -/
theorem minor_version_validation (args : Args)
    (h : getStringArg args "minor_version" = none
      ∨ getStringArg args "minor_version" = some "") :
    (∀ {α : Type} (body : String → α),
        branchHandler body args = .error "minor_version parameter is required")
    ∧ (∀ {α : Type} (body : String → String → List (String × String) → α),
        hackHandler body args = .error "minor_version parameter is required")
    ∧ (∀ {α : Type} (body : String → String → List String → α),
        releasePlanHandler body args = .error "minor_version parameter is required") := by
  have hex : extractMinorVersion args = .error "minor_version parameter is required" := by
    rcases h with h | h <;> simp [extractMinorVersion, h]
  exact ⟨fun body => by simp [branchHandler, hex],
         fun body => by simp [hackHandler, hex],
         fun body => by simp [releasePlanHandler, hex]⟩

theorem minor_version_validation_witness :
    branchHandler (fun m => m) [("minor_version", ArgValue.other)]
      = .error "minor_version parameter is required" :=
  (minor_version_validation [("minor_version", ArgValue.other)] (Or.inl (by decide))).1
    (fun m => m)

/-- C10: `updateKonfluxConfigs` rewrites every non-directory `.yaml`
entry to exactly `ReplaceAll(content, "next", minorVersion)` — every
occurrence of the substring `next`, including inside longer words. -/
theorem konflux_replace_all (minorVersion : List Char) (entries : List DirEntry)
    (i : Nat) (e : DirEntry) (he : entries[i]? = some e)
    (hdir : e.isDir = false) (hyaml : hasYamlSuffix e.ename = true) :
    (updateKonfluxConfigs minorVersion entries)[i]? =
      some { e with content := replaceNext minorVersion e.content } := by
  simp [updateKonfluxConfigs, List.getElem?_map, he, hdir, hyaml]

theorem konflux_replace_all_witness :
    (updateKonfluxConfigs "1.19".toList
        [⟨"pipeline.yaml", false, "version: next, annexttoken".toList⟩])[0]?
      = some ⟨"pipeline.yaml", false, "version: 1.19, an1.19token".toList⟩ := by
  rw [konflux_replace_all "1.19".toList
    [⟨"pipeline.yaml", false, "version: next, annexttoken".toList⟩] 0
    ⟨"pipeline.yaml", false, "version: next, annexttoken".toList⟩
    (by decide) (by decide) (by decide)]
  decide

/-- C1, counterexample: with the handler's component groups
`{cli, core, operator, fbc}` and environments `{stage, prod}`, `createRPs`
writes 8 release-plan files — including two for the `fbc` group — not 6,
so the total is 16 documents, not 14. -/
theorem release_plan_matrix_counterexample :
    (rpFileNames (handlerRPAConfig "1.19" "" defaultOCPVersions)).length = 8
    ∧ "openshift-pipelines-fbc-1.19-stage-release-as-op.yaml"
        ∈ rpFileNames (handlerRPAConfig "1.19" "" defaultOCPVersions)
    ∧ (rpaFileNames (handlerRPAConfig "1.19" "" defaultOCPVersions)).length
        + (rpFileNames (handlerRPAConfig "1.19" "" defaultOCPVersions)).length = 16 := by
  refine ⟨by decide, by decide, by decide⟩

/-- C1, amended: `createRPAs` writes one admission document per group
per environment and `createRPs` writes one release-plan document per group
per environment including the FBC group, so each count is
`|groups| * |envs|` and the total is twice that. -/
theorem release_plan_matrix_amended (c : RPAConfig) :
    (rpaFileNames c).length = c.components.length * c.environments.length
    ∧ (rpFileNames c).length = c.components.length * c.environments.length := by
  exact ⟨flatMap_map_length _ _ _, flatMap_map_length _ _ _⟩

/-- C2, counterexample: a file whose YAML fails to parse aborts the
whole directory scan — with the failing file first, the valid sibling
produces no write at all, although on its own it would be updated. -/
theorem repo_scan_abort_counterexample :
    updateRepoBranches "1.19".toList [] [badRepoFile, goodRepoFile]
        = ([], some .parseFailure)
    ∧ (updateRepoBranches "1.19".toList [] [goodRepoFile]).2 = none
    ∧ (updateRepoBranches "1.19".toList [] [goodRepoFile]).1.length = 1 := by
  refine ⟨by decide, by decide, by decide⟩

/-- C2, amended: a parse failure (or the panic of the `name` type
assertion) on one `.yaml` file ends the scan: files before it keep the
edits already written, files after it are never processed. -/
theorem repo_scan_abort (minorVersion : List Char) (uv : List (String × List Char))
    (pre : List RepoFile) (bad : RepoFile) (rest : List RepoFile)
    (hpre : (updateRepoBranches minorVersion uv pre).2 = none)
    (hyaml : isYamlEntry bad = true)
    (hbad : bad.parseOk = false ∨ bad.nameField = none) :
    updateRepoBranches minorVersion uv (pre ++ bad :: rest)
      = ((updateRepoBranches minorVersion uv pre).1,
         some (if bad.parseOk then ScanError.namePanic else ScanError.parseFailure)) := by
  induction pre with
  | nil =>
    rcases hbad with hb | hb
    · simp [updateRepoBranches, hyaml, hb]
    · rcases hpo : bad.parseOk with _ | _
      · simp [updateRepoBranches, hyaml, hpo]
      · simp [updateRepoBranches, hyaml, hpo, hb]
  | cons f fs ih =>
    by_cases hf : isYamlEntry f
    · rcases hfp : f.parseOk with _ | _
      · exfalso
        simp [updateRepoBranches, hf, hfp] at hpre
      · rcases hfn : f.nameField with _ | nm
        · exfalso
          simp [updateRepoBranches, hf, hfp, hfn] at hpre
        · have hpre' : (updateRepoBranches minorVersion uv fs).2 = none := by
            simpa [updateRepoBranches, hf, hfp, hfn] using hpre
          simp [updateRepoBranches, hf, hfp, hfn, ih hpre']
    · have hpre' : (updateRepoBranches minorVersion uv fs).2 = none := by
        simpa [updateRepoBranches, hf] using hpre
      simp [updateRepoBranches, hf, ih hpre']

theorem repo_scan_abort_witness :
    (updateRepoBranches "1.19".toList [] [goodRepoFile]).2 = none
    ∧ isYamlEntry badRepoFile = true
    ∧ badRepoFile.parseOk = false
    ∧ updateRepoBranches "1.19".toList [] [goodRepoFile, badRepoFile, goodRepoFile]
        = ((updateRepoBranches "1.19".toList [] [goodRepoFile]).1,
           some ScanError.parseFailure) := by
  refine ⟨by decide, by decide, by decide, ?_⟩
  have h := repo_scan_abort "1.19".toList [] [goodRepoFile] badRepoFile [goodRepoFile]
    (by decide) (by decide) (Or.inl (by decide))
  rw [show ([goodRepoFile, badRepoFile, goodRepoFile] : List RepoFile)
      = [goodRepoFile] ++ badRepoFile :: [goodRepoFile] from rfl, h]
  rfl

/-! ### C5: the kustomization update is not idempotent -/

theorem toList_append (a b : String) : (a ++ b).toList = a.toList ++ b.toList := by
  simp [String.toList]

theorem flatMap_ins_length (k : List (List Char)) (L : List (List Char)) :
    (L.flatMap (fun l => if trimSpace l = resourcesLit then l :: k else [l])).length
      = L.length + (L.countP (fun l => trimSpace l = resourcesLit)) * k.length := by
  induction L with
  | nil => simp
  | cons l ls ih =>
    by_cases hl : trimSpace l = resourcesLit
    · rw [List.flatMap_cons, List.length_append, ih, if_pos hl,
        List.countP_cons_of_pos _ _ (by simpa using hl)]
      simp only [List.length_cons]
      ring
    · rw [List.flatMap_cons, List.length_append, ih, if_neg hl,
        List.countP_cons_of_neg _ _ (by simpa using hl)]
      simp only [List.length_cons, List.length_nil]
      ring

theorem mem_flatMap_ins {k L : List (List Char)} {x : List Char}
    (hx : x ∈ L.flatMap (fun l => if trimSpace l = resourcesLit then l :: k else [l])) :
    x ∈ L ∨ x ∈ k := by
  simp only [List.mem_flatMap] at hx
  obtain ⟨l, hl, hxl⟩ := hx
  by_cases h : trimSpace l = resourcesLit
  · rw [if_pos h] at hxl
    rcases List.mem_cons.mp hxl with rfl | hxk
    · exact Or.inl hl
    · exact Or.inr hxk
  · rw [if_neg h] at hxl
    simp only [List.mem_singleton] at hxl
    subst hxl
    exact Or.inl hl

theorem flatMap_ins_countP (k : List (List Char))
    (hk : ∀ r ∈ k, ¬ trimSpace r = resourcesLit) (L : List (List Char)) :
    (L.flatMap (fun l => if trimSpace l = resourcesLit then l :: k else [l])).countP
        (fun l => trimSpace l = resourcesLit)
      = L.countP (fun l => trimSpace l = resourcesLit) := by
  have hk0 : k.countP (fun l => trimSpace l = resourcesLit) = 0 := by
    rw [List.countP_eq_zero]
    intro a ha
    simpa using hk a ha
  induction L with
  | nil => simp
  | cons l ls ih =>
    by_cases hl : trimSpace l = resourcesLit
    · rw [List.flatMap_cons, List.countP_append, ih, if_pos hl,
        List.countP_cons_of_pos _ _ (by simpa using hl),
        List.countP_cons_of_pos _ _ (by simpa using hl), hk0]
      omega
    · rw [List.flatMap_cons, List.countP_append, ih, if_neg hl,
        List.countP_cons_of_neg _ _ (by simpa using hl),
        List.countP_cons_of_neg _ _ (by simpa using hl)]
      simp

theorem newResourceLines_shape {c : RPAConfig} :
    ∀ l ∈ newResourceLines c, ∃ t, l = ' ' :: ' ' :: '-' :: ' ' :: t := by
  intro l hl
  simp only [newResourceLines, List.mem_flatMap, List.mem_map] at hl
  obtain ⟨g, -, env, -, rfl⟩ := hl
  refine ⟨(rpFileName c.minorVersion g.1 env).toList, ?_⟩
  rw [toList_append]
  rfl

theorem newResource_trim_ne {c : RPAConfig} :
    ∀ l ∈ newResourceLines c, ¬ trimSpace l = resourcesLit := by
  intro l hl heq
  obtain ⟨t, rfl⟩ := newResourceLines_shape l hl
  obtain ⟨ys, hy⟩ := trimSpace_dash_cons t
  rw [hy] at heq
  have hhead : some '-' = some 'r' := by
    have hh := congrArg List.head? heq
    simp only [resourcesLit, List.head?_cons] at hh
    exact hh
  simp at hhead

theorem newResourceLines_ne_nil {c : RPAConfig} (hcomp : c.components ≠ [])
    (henv : c.environments ≠ []) : newResourceLines c ≠ [] := by
  obtain ⟨g, gs, hg⟩ := List.exists_cons_of_ne_nil hcomp
  obtain ⟨e, es, he⟩ := List.exists_cons_of_ne_nil henv
  simp [newResourceLines, hg, he]

set_option maxRecDepth 8000 in
/-- C5, counterexample: with the `create-release-plans` handler's own
configuration, applying the kustomization update twice to a document with a
`resources:` line yields a different document than applying it once — the
new resource entries are inserted again. -/
theorem release_plans_idempotence_counterexample :
    updateKustomizationContent (handlerRPAConfig "1.19" "" defaultOCPVersions)
        (updateKustomizationContent (handlerRPAConfig "1.19" "" defaultOCPVersions)
          "resources:".toList)
      ≠ updateKustomizationContent (handlerRPAConfig "1.19" "" defaultOCPVersions)
          "resources:".toList := by
  decide

/-- C5, amended: the generated task and file-name sequences are a pure
function of the configuration (given the fixed iteration order of the
component table), and the RPA/RP files are overwritten; but re-running is
not idempotent: whenever the configuration is non-trivial and
`kustomization.yaml` has a `resources:` line, the update inserts the
resource entries again, so the content after two runs differs from the
content after one run. -/
theorem kustomization_not_idempotent (c : RPAConfig) (content : List Char)
    (hcomp : c.components ≠ []) (henv : c.environments ≠ [])
    (hnl : ∀ l ∈ newResourceLines c, '\n' ∉ l)
    (hres : (splitNl content).any (fun l => trimSpace l = resourcesLit) = true) :
    updateKustomizationContent c (updateKustomizationContent c content)
      ≠ updateKustomizationContent c content := by
  set k := newResourceLines c with hk
  set L := splitNl content with hL
  set U₁ := L.flatMap (fun l => if trimSpace l = resourcesLit then l :: k else [l]) with hU₁
  have step1 : updateKustomizationContent c content = joinNl U₁ := by
    rw [updateKustomizationContent]
    simp only [← hL, hres, if_true, ← hk, ← hU₁]
  have hU₁nl : ∀ l ∈ U₁, '\n' ∉ l := by
    intro l hl
    rcases mem_flatMap_ins hl with h | h
    · exact mem_splitNl_not_mem_nl l h
    · exact hnl l h
  have hU₁ne : U₁ ≠ [] := by
    intro habs
    have := flatMap_ins_length k L
    rw [← hU₁, habs] at this
    simp only [List.length_nil] at this
    have hLne : L ≠ [] := splitNl_ne_nil content
    have : L.length = 0 := by omega
    exact hLne (List.length_eq_zero.mp this)
  have step4 : splitNl (joinNl U₁) = U₁ := splitNl_joinNl hU₁ne hU₁nl
  have hcount : U₁.countP (fun l => trimSpace l = resourcesLit)
      = L.countP (fun l => trimSpace l = resourcesLit) :=
    flatMap_ins_countP k newResource_trim_ne L
  have hm : 0 < L.countP (fun l => trimSpace l = resourcesLit) := by
    rw [List.countP_pos_iff]
    obtain ⟨l, hl, hp⟩ := List.any_eq_true.mp hres
    exact ⟨l, hl, hp⟩
  have hany₁ : U₁.any (fun l => trimSpace l = resourcesLit) = true := by
    rw [List.any_eq_true]
    have := List.countP_pos_iff (p := fun l => decide (trimSpace l = resourcesLit)) (l := U₁)
    rw [hcount] at this
    obtain ⟨a, ha, hpa⟩ := this.mp hm
    exact ⟨a, ha, hpa⟩
  set U₂ := U₁.flatMap (fun l => if trimSpace l = resourcesLit then l :: k else [l]) with hU₂
  have step6 : updateKustomizationContent c (joinNl U₁) = joinNl U₂ := by
    rw [updateKustomizationContent]
    simp only [step4, hany₁, if_true, ← hk, ← hU₂]
  rw [step1, step6]
  intro heq
  have hU₂nl : ∀ l ∈ U₂, '\n' ∉ l := by
    intro l hl
    rcases mem_flatMap_ins hl with h | h
    · exact hU₁nl l h
    · exact hnl l h
  have hU₂ne : U₂ ≠ [] := by
    intro habs
    have := flatMap_ins_length k U₁
    rw [← hU₂, habs] at this
    simp only [List.length_nil] at this
    have : U₁.length = 0 := by omega
    exact hU₁ne (List.length_eq_zero.mp this)
  have hsplit := congrArg splitNl heq
  rw [splitNl_joinNl hU₂ne hU₂nl, step4] at hsplit
  have hlen := congrArg List.length hsplit
  rw [flatMap_ins_length k U₁, hcount] at hlen
  have hkne : k ≠ [] := newResourceLines_ne_nil hcomp henv
  have hklen : 0 < k.length := List.length_pos.mpr hkne
  have hpos : 0 < L.countP (fun l => trimSpace l = resourcesLit) * k.length :=
    Nat.mul_pos hm hklen
  set P := L.countP (fun l => trimSpace l = resourcesLit) * k.length with hP
  omega

/-! ### The branch-section editor: structure of the edited document

The edited document always has the shape
`A ++ "\nbranches:" ++ "\n" ++ renderedBlock ++ suf`, where `A` contains no
occurrence of `"\nbranches:"` and `suf` is empty or starts with `"\n\n"`.
The lemmas below pin down where `"\nbranches:"` and `"\n\n"` can occur in
such a document. -/

theorem nlBranches_length : nlBranches.length = 10 := rfl

theorem nlBranches_ne_nil : nlBranches ≠ [] := by decide

theorem nlB_interior : ∀ k, 1 ≤ k → k < 10 → nlBranches[k]? ≠ some '\n' := by decide

theorem hdr_no_nl : ∀ k < 9, ("branches:".toList)[k]? ≠ some '\n' := by decide

theorem occursAt_nlBranches_chars {s : List Char} {i : Nat}
    (h : occursAt s nlBranches i) : s[i]? = some '\n' ∧ s[i + 1]? = some 'b' := by
  have h0 := occursAt_getElem h 0 (by decide)
  have h1 := occursAt_getElem h 1 (by decide)
  rw [Nat.add_zero] at h0
  exact ⟨h0, h1⟩

theorem occursAt_nlnl_chars {s : List Char} {i : Nat}
    (h : occursAt s nlnl i) : s[i]? = some '\n' ∧ s[i + 1]? = some '\n' := by
  have h0 := occursAt_getElem h 0 (by decide)
  have h1 := occursAt_getElem h 1 (by decide)
  rw [Nat.add_zero] at h0
  exact ⟨h0, h1⟩

/-- If `A` itself contains no occurrence of `"\nbranches:"`, then in
`A ++ '\n' :: rest` there is no occurrence starting before `A.length`:
an occurrence fully inside `A` is excluded by hypothesis, and an occurrence
spanning the boundary would put the boundary `'\n'` inside the
newline-free interior of the pattern. -/
theorem no_onset_before {A rest : List Char}
    (hA : ∀ i, ¬ occursAt A nlBranches i) :
    ∀ i < A.length, ¬ occursAt (A ++ '\n' :: rest) nlBranches i := by
  intro i hi h
  by_cases hc : i + nlBranches.length ≤ A.length
  · exact hA i (occursAt_of_append_left hc h)
  · rw [nlBranches_length] at hc
    have hk := occursAt_getElem h (A.length - i)
      (by rw [nlBranches_length]; omega)
    rw [show i + (A.length - i) = A.length by omega] at hk
    have hmid : (A ++ '\n' :: rest)[A.length]? = some '\n' := by
      rw [List.getElem?_append, if_neg (by omega)]
      simp
    rw [hmid] at hk
    exact nlB_interior (A.length - i) (by omega) (by omega) hk.symm

theorem hdrLen : ("branches:".toList).length = 9 := rfl

theorem s2_getElem_B {B suf : List Char} {j : Nat} (h10 : 10 ≤ j)
    (hjB : j - 10 < B.length) :
    ("branches:".toList ++ '\n' :: (B ++ suf))[j]? = B[j - 10]? := by
  rw [List.getElem?_append, if_neg (by rw [hdrLen]; omega)]
  rw [show j - ("branches:".toList).length = (j - 10) + 1 by rw [hdrLen]; omega]
  rw [List.getElem?_cons_succ, List.getElem?_append, if_pos hjB]

theorem s2_getElem_suf {B suf : List Char} {j : Nat} (h : 10 + B.length ≤ j) :
    ("branches:".toList ++ '\n' :: (B ++ suf))[j]? = suf[j - 10 - B.length]? := by
  rw [List.getElem?_append, if_neg (by rw [hdrLen]; omega)]
  rw [show j - ("branches:".toList).length = (j - 10) + 1 by rw [hdrLen]; omega]
  rw [List.getElem?_cons_succ, List.getElem?_append, if_neg (by omega)]

theorem occursAt_append_elim_right {x y pat : List Char} {i : Nat} (h : x.length ≤ i)
    (hocc : occursAt (x ++ y) pat i) : occursAt y pat (i - x.length) := by
  rw [occursAt] at hocc ⊢
  rwa [show i = x.length + (i - x.length) by omega, List.drop_append] at hocc

/-- In `"branches:" ++ "\n" ++ B ++ suf` there is no occurrence of `"\n\n"`
before the start of `suf`. -/
theorem no_nlnl_in_head {B suf : List Char} (hB : nlSp B = true)
    (hBh : B.head? = some ' ') :
    ∀ j < 10 + B.length,
      ¬ occursAt ("branches:".toList ++ '\n' :: (B ++ suf)) nlnl j := by
  intro j hj h
  obtain ⟨h0, h1⟩ := occursAt_nlnl_chars h
  have hBne : B ≠ [] := by
    intro hb
    rw [hb] at hBh
    simp at hBh
  have hB0 : B[0]? = some ' ' := by
    rw [← List.head?_eq_getElem?]
    exact hBh
  rcases Nat.lt_or_ge j 9 with hj9 | hj9
  · rw [List.getElem?_append, if_pos (by rw [hdrLen]; omega)] at h0
    exact hdr_no_nl j hj9 h0
  · rcases Nat.eq_or_lt_of_le hj9 with hj9e | hj10
    · rw [s2_getElem_B (by omega) (by rw [← hj9e]; simpa using List.length_pos.mpr hBne)]
        at h1
      rw [show j + 1 - 10 = 0 by omega, hB0] at h1
      simp at h1
    · have ht : j - 10 < B.length := by omega
      rw [s2_getElem_B (by omega) ht] at h0
      have hsp := nlSp_next hB (j - 10) h0
      have ht1 : j - 10 + 1 < B.length := by
        by_contra hge
        rw [List.getElem?_eq_none (by omega)] at hsp
        simp at hsp
      rw [s2_getElem_B (by omega) (by omega)] at h1
      rw [show j + 1 - 10 = j - 10 + 1 by omega, hsp] at h1
      simp at h1

/-- When `suf` is empty, `"\n\n"` does not occur at all. -/
theorem findIdx_nlnl_none {B : List Char} (hB : nlSp B = true)
    (hBh : B.head? = some ' ') :
    findIdx ("branches:".toList ++ '\n' :: (B ++ ([] : List Char))) nlnl = none := by
  rw [findIdx_none_iff]
  intro j h
  have hlen := occursAt_length_le (by decide) h
  simp only [List.append_nil, List.length_append, List.length_cons, hdrLen] at hlen
  refine no_nlnl_in_head hB hBh j ?_ h
  have : nlnl.length = 2 := rfl
  omega

/-- When `suf` starts with `"\n\n"`, the first `"\n\n"` is exactly at the
start of `suf`. -/
theorem findIdx_nlnl_some {B suf : List Char} (hB : nlSp B = true)
    (hBh : B.head? = some ' ') (r : List Char) (hsuf : suf = '\n' :: '\n' :: r) :
    findIdx ("branches:".toList ++ '\n' :: (B ++ suf)) nlnl = some (10 + B.length) := by
  rw [findIdx_some_iff]
  constructor
  · rw [occursAt, show "branches:".toList ++ '\n' :: (B ++ suf)
      = ("branches:".toList ++ '\n' :: B) ++ suf by simp]
    rw [show 10 + B.length = ("branches:".toList ++ '\n' :: B).length by
      simp [hdrLen]; omega]
    rw [List.drop_left, hsuf]
    exact ⟨r, rfl⟩
  · intro i hi
    exact no_nlnl_in_head hB hBh i hi

/-- After the `"\nbranches:"` header, the pattern `"\nbranches:"` can only
occur again inside `suf`. -/
theorem no_nlB_after {B suf : List Char} (hB : nlSp B = true) (hBh : B.head? = some ' ')
    (hsufocc : ∀ j, ¬ occursAt suf nlBranches j) :
    ∀ j, 1 ≤ j →
      ¬ occursAt ('\n' :: ("branches:".toList ++ '\n' :: (B ++ suf))) nlBranches j := by
  intro j hj1 h
  have h' : occursAt ("branches:".toList ++ '\n' :: (B ++ suf)) nlBranches (j - 1) := by
    rw [show j = (j - 1) + 1 by omega] at h
    exact h
  set t := j - 1 with htdef
  obtain ⟨h0, h1⟩ := occursAt_nlBranches_chars h'
  have hBne : B ≠ [] := by
    intro hb
    rw [hb] at hBh
    simp at hBh
  have hB0 : B[0]? = some ' ' := by
    rw [← List.head?_eq_getElem?]
    exact hBh
  rcases Nat.lt_or_ge t 9 with ht9 | ht9
  · rw [List.getElem?_append, if_pos (by rw [hdrLen]; omega)] at h0
    exact hdr_no_nl t ht9 h0
  · rcases Nat.eq_or_lt_of_le ht9 with ht9e | ht10
    · rw [s2_getElem_B (by omega) (by rw [← ht9e]; simpa using List.length_pos.mpr hBne)]
        at h1
      rw [show t + 1 - 10 = 0 by omega, hB0] at h1
      simp at h1
    · rcases Nat.lt_or_ge t (10 + B.length) with htB | htsuf
      · have ht : t - 10 < B.length := by omega
        rw [s2_getElem_B (by omega) ht] at h0
        have hsp := nlSp_next hB (t - 10) h0
        have ht1 : t - 10 + 1 < B.length := by
          by_contra hge
          rw [List.getElem?_eq_none (by omega)] at hsp
          simp at hsp
        rw [s2_getElem_B (by omega) (by omega)] at h1
        rw [show t + 1 - 10 = t - 10 + 1 by omega, hsp] at h1
        simp at h1
      · have hX : "branches:".toList ++ '\n' :: (B ++ suf)
            = ("branches:".toList ++ '\n' :: B) ++ suf := by simp
        rw [hX] at h'
        have hXlen : ("branches:".toList ++ '\n' :: B).length = 10 + B.length := by
          simp [hdrLen]
          omega
        have := occursAt_append_elim_right (by omega : ("branches:".toList ++ '\n' :: B).length ≤ t) h'
        exact hsufocc _ this

theorem nl_not_mem_append {x y : List Char} (hx : '\n' ∉ x) (hy : '\n' ∉ y) :
    '\n' ∉ x ++ y := by
  intro hm
  rcases List.mem_append.mp hm with hm | hm
  · exact hx hm
  · exact hy hm

theorem lookupUV_nl_free {uv : List (String × List Char)} {k : String} {v : List Char}
    (huv : ∀ p ∈ uv, '\n' ∉ p.2) (h : lookupUV uv k = some v) : '\n' ∉ v := by
  unfold lookupUV at h
  obtain ⟨p, hp, hpv⟩ := Option.map_eq_some'.mp h
  rw [← hpv]
  exact huv p (List.mem_of_find?_eq_some hp)

theorem relBranchName_nl_free {minor : List Char} (h : '\n' ∉ minor) :
    '\n' ∉ relBranchName minor := by
  unfold relBranchName
  exact nl_not_mem_append (nl_not_mem_append (by decide) h) (by decide)

theorem upstream_nl_free {uv : List (String × List Char)} (comp : String)
    (huv : ∀ p ∈ uv, '\n' ∉ p.2) (b : Bool) :
    '\n' ∉ (if b then (lookupUV uv comp).getD [] else []) := by
  cases b
  · simp
  · simp only [if_true]
    cases hlk : lookupUV uv comp with
    | none => simp
    | some v => simpa using lookupUV_nl_free huv hlk

theorem branchConfig_nl_free {cfg : EditorConfig} (h : cfgNlFree cfg) :
    '\n' ∉ (createBranchConfig cfg.minorVersion cfg.repoName cfg.hasUpstream
        cfg.upstreamVersions).bname
    ∧ '\n' ∉ (createBranchConfig cfg.minorVersion cfg.repoName cfg.hasUpstream
        cfg.upstreamVersions).upstream
    ∧ (createBranchConfig cfg.minorVersion cfg.repoName cfg.hasUpstream
        cfg.upstreamVersions).versions = [cfg.minorVersion] := by
  obtain ⟨hm, huv⟩ := h
  have hrel := relBranchName_nl_free hm
  unfold createBranchConfig
  split
  · exact ⟨hrel, by simp, rfl⟩
  · rename_i comp heq
    split
    · split
      · rename_i v hlk
        exact ⟨lookupUV_nl_free huv hlk, by simp, rfl⟩
      · refine ⟨hrel, ?_, rfl⟩
        exact upstream_nl_free comp huv cfg.hasUpstream
    · refine ⟨hrel, ?_, rfl⟩
      exact upstream_nl_free comp huv cfg.hasUpstream

theorem good_line_of {x : List Char} (h : '\n' ∉ x) :
    '\n' ∉ ("  ".toList ++ x) ∧ ("  ".toList ++ x).head? = some ' ' :=
  ⟨nl_not_mem_append (by decide) h, rfl⟩

theorem formatBranchYAML_good {bc : BranchConfig} {hp : Bool}
    (hn : '\n' ∉ bc.bname) (hu : '\n' ∉ bc.upstream)
    (hv : ∀ v ∈ bc.versions, '\n' ∉ v) :
    ∀ l ∈ formatBranchYAML bc "  ".toList hp, '\n' ∉ l ∧ l.head? = some ' ' := by
  intro l hl
  simp only [formatBranchYAML, List.append_assoc, List.mem_append, List.mem_cons,
    List.not_mem_nil, or_false, List.mem_map] at hl
  rcases hl with hl | hl
  · subst hl
    exact good_line_of (nl_not_mem_append (by decide) hn)
  rcases hl with hl | hl
  · have : l = "  ".toList ++ ("  upstream: ".toList ++ bc.upstream) := by
      by_cases hub : bc.upstream ≠ []
      · simpa [hub, List.append_assoc] using hl
      · simp [hub] at hl
    rw [this]
    exact good_line_of (nl_not_mem_append (by decide) hu)
  rcases hl with hl | hl
  · have : l = "  ".toList ++ "  patches: *patches".toList := by
      by_cases hpb : hp = true
      · simpa [hpb] using hl
      · simp [hpb] at hl
    rw [this]
    exact good_line_of (by decide)
  rcases hl with hl | hl
  · subst hl
    exact good_line_of (by decide)
  · obtain ⟨v, hv', rfl⟩ := hl
    exact good_line_of (nl_not_mem_append (by decide)
      (nl_not_mem_append (hv v hv') (by decide)))

theorem joinNl_good {L : List (List Char)} (hne : L ≠ [])
    (h : ∀ l ∈ L, '\n' ∉ l ∧ l.head? = some ' ') :
    nlSp (joinNl L) = true ∧ (joinNl L).head? = some ' ' := by
  induction L with
  | nil => exact absurd rfl hne
  | cons l ls ih =>
    obtain ⟨hl, hlh⟩ := h l (List.mem_cons_self _ _)
    cases ls with
    | nil =>
      exact ⟨nlSp_of_not_mem hl, hlh⟩
    | cons l₂ ls₂ =>
      obtain ⟨hr, hrh⟩ := ih (by simp) (fun x hx => h x (List.mem_cons_of_mem _ hx))
      have hlne : l ≠ [] := by
        intro hb
        rw [hb] at hlh
        simp at hlh
      constructor
      · show nlSp (l ++ '\n' :: joinNl (l₂ :: ls₂)) = true
        exact nlSp_append_nl hl hrh hr
      · show (l ++ '\n' :: joinNl (l₂ :: ls₂)).head? = some ' '
        cases l with
        | nil => exact absurd rfl hlne
        | cons a l' =>
          simp only [List.cons_append, List.head?_cons]
          simpa using hlh

theorem renderedBlock_good {cfg : EditorConfig} (h : cfgNlFree cfg) :
    nlSp (renderedBlock cfg) = true ∧ (renderedBlock cfg).head? = some ' ' := by
  obtain ⟨hn, hu, hv⟩ := branchConfig_nl_free h
  refine joinNl_good ?_ (formatBranchYAML_good hn hu ?_)
  · simp [formatBranchYAML]
  · rw [hv]
    intro v hv'
    rw [List.mem_singleton] at hv'
    subst hv'
    exact h.1

theorem editDoc_found (cfg : EditorConfig) (doc : List Char) (p : Nat)
    (h : findIdx doc nlBranches = some p) :
    editDoc cfg doc = doc.take (p + 1)
      ++ ("branches:".toList ++ '\n' :: renderedBlock cfg)
      ++ doc.drop (sectionEnd doc p) := by
  simp only [editDoc, h, sectionEnd]
  simp [List.append_assoc]

/-- Editing a document that already has the canonical edited shape
`A ++ "\nbranches:\n" ++ renderedBlock ++ suf` reproduces it exactly. -/
theorem editDoc_fixpoint (cfg : EditorConfig) (A suf : List Char)
    (hBsp : nlSp (renderedBlock cfg) = true)
    (hBh : (renderedBlock cfg).head? = some ' ')
    (hA : ∀ i, ¬ occursAt A nlBranches i)
    (hsuf : suf = [] ∨ ∃ r, suf = '\n' :: '\n' :: r) :
    editDoc cfg (A ++ nlBranches ++ '\n' :: (renderedBlock cfg ++ suf))
      = A ++ nlBranches ++ '\n' :: (renderedBlock cfg ++ suf) := by
  set B := renderedBlock cfg with hBdef
  set doc := A ++ nlBranches ++ '\n' :: (B ++ suf) with hdoc
  have hshape : doc = A ++ '\n' :: ("branches:".toList ++ '\n' :: (B ++ suf)) := by
    rw [hdoc]
    simp [nlBranches]
  have hfind : findIdx doc nlBranches = some A.length := by
    rw [findIdx_some_iff]
    constructor
    · rw [occursAt, hdoc,
        show A ++ nlBranches ++ '\n' :: (B ++ suf)
          = A ++ (nlBranches ++ '\n' :: (B ++ suf)) by simp [List.append_assoc],
        List.drop_left]
      exact ⟨'\n' :: (B ++ suf), rfl⟩
    · rw [hshape]
      exact fun i hi => no_onset_before hA i hi
  have hafter : doc.drop (A.length + 1) = "branches:".toList ++ '\n' :: (B ++ suf) := by
    rw [hshape, List.drop_append]
    rfl
  have htake : doc.take (A.length + 1) = A ++ ['\n'] := by
    rw [hshape, List.take_append]
    rfl
  rw [editDoc_found cfg doc A.length hfind, htake]
  rcases hsuf with hsufe | ⟨r, hsufr⟩
  · subst hsufe
    have hdrop2 : doc.drop (sectionEnd doc A.length) = [] := by
      apply List.drop_eq_nil_of_le
      rw [sectionEnd, hafter, findIdx_nlnl_none hBsp hBh]
      simp only [Option.getD_none, List.length_append, List.length_cons, hdrLen, hdoc,
        nlBranches_length, List.length_nil]
      omega
    rw [hdrop2, hshape]
    simp [List.append_assoc]
  · have hns : findIdx (doc.drop (A.length + 1)) nlnl = some (10 + B.length) := by
      rw [hafter]
      exact findIdx_nlnl_some hBsp hBh r hsufr
    have hdrop2 : doc.drop (sectionEnd doc A.length) = suf := by
      rw [sectionEnd, hns]
      simp only [Option.getD_some]
      rw [show A.length + (10 + B.length) + 1 = (A.length + 1) + (10 + B.length) by omega,
        ← List.drop_drop, hafter,
        show "branches:".toList ++ '\n' :: (B ++ suf)
          = ("branches:".toList ++ '\n' :: B) ++ suf by simp,
        show 10 + B.length = ("branches:".toList ++ '\n' :: B).length by
          simp [hdrLen]; omega,
        List.drop_left]
    rw [hdrop2, hshape]
    simp [List.append_assoc]

theorem ensureNl_split (doc : List Char) :
    ∃ A, (if hasNlSuffix doc then doc else doc ++ ['\n']) = A ++ ['\n'] ∧ A <+: doc := by
  by_cases h : hasNlSuffix doc = true
  · rw [if_pos h]
    have h' : doc.getLast? = some '\n' := by simpa [hasNlSuffix] using h
    have hne : doc ≠ [] := by
      intro hb
      rw [hb] at h'
      simp at h'
    refine ⟨doc.dropLast, ?_, List.dropLast_prefix doc⟩
    have hlast : doc.getLast hne = '\n' := by
      rw [List.getLast?_eq_getLast doc hne] at h'
      simpa using h'
    conv_lhs => rw [← List.dropLast_append_getLast hne]
    rw [hlast]
  · rw [if_neg h]
    exact ⟨doc, rfl, List.prefix_refl doc⟩

/-- C3: running the per-file branch edit twice with identical
configuration yields the same document as running it once — the second run
replaces the section written by the first instead of duplicating it.  The
hypothesis asks that the configured version strings are single-line. -/
theorem branches_edit_idempotent (cfg : EditorConfig) (doc : List Char)
    (h : cfgNlFree cfg) :
    editDoc cfg (editDoc cfg doc) = editDoc cfg doc := by
  obtain ⟨hBsp, hBh⟩ := renderedBlock_good h
  cases hfind : findIdx doc nlBranches with
  | none =>
    obtain ⟨A, hA, hpre⟩ := ensureNl_split doc
    have hAocc : ∀ i, ¬ occursAt A nlBranches i := fun i hocc =>
      findIdx_none_iff.mp hfind i (occursAt_of_pfx hpre hocc)
    have h1 : editDoc cfg doc
        = A ++ nlBranches ++ '\n' :: (renderedBlock cfg ++ []) := by
      simp only [editDoc, hfind]
      rw [hA]
      simp [nlBranches, List.append_assoc]
    rw [h1, editDoc_fixpoint cfg A [] hBsp hBh hAocc (Or.inl rfl)]
  | some p =>
    obtain ⟨hocc, hmin⟩ := findIdx_some_iff.mp hfind
    have hAocc : ∀ i, ¬ occursAt (doc.take p) nlBranches i := by
      intro i hocc'
      have hlen := occursAt_length_le nlBranches_ne_nil hocc'
      rw [nlBranches_length] at hlen
      have htle : (doc.take p).length ≤ p := by
        simp [List.length_take]
      exact hmin i (by omega) (occursAt_of_pfx ( List.take_prefix p doc) hocc')
    set suf := (doc.drop (p + 1)).drop
      ((findIdx (doc.drop (p + 1)) nlnl).getD (doc.drop (p + 1)).length) with hsufdef
    have hsuf : suf = [] ∨ ∃ r, suf = '\n' :: '\n' :: r := by
      cases hnn : findIdx (doc.drop (p + 1)) nlnl with
      | none =>
        left
        rw [hsufdef, hnn]
        simp only [Option.getD_none]
        exact List.drop_length _
      | some m =>
        right
        obtain ⟨hoccm, -⟩ := findIdx_some_iff.mp hnn
        obtain ⟨r, hr⟩ := hoccm
        refine ⟨r, ?_⟩
        rw [hsufdef, hnn]
        simp only [Option.getD_some]
        rw [← hr]
        rfl
    have htake : doc.take (p + 1) = doc.take p ++ ['\n'] := by
      rw [List.take_add]
      congr 1
      obtain ⟨t, ht⟩ := hocc
      rw [← ht]
      rfl
    have hdrop : doc.drop (sectionEnd doc p) = suf := by
      rw [sectionEnd, hsufdef,
        show p + ((findIdx (doc.drop (p + 1)) nlnl).getD (doc.drop (p + 1)).length) + 1
          = (p + 1) + ((findIdx (doc.drop (p + 1)) nlnl).getD (doc.drop (p + 1)).length)
          by omega,
        ← List.drop_drop]
    have h1 : editDoc cfg doc
        = doc.take p ++ nlBranches ++ '\n' :: (renderedBlock cfg ++ suf) := by
      rw [editDoc_found cfg doc p hfind, htake, hdrop]
      simp [nlBranches, List.append_assoc]
    rw [h1, editDoc_fixpoint cfg (doc.take p) suf hBsp hBh hAocc hsuf]

theorem branches_edit_idempotent_witness :
    editDoc demoEditorConfig (editDoc demoEditorConfig
        "name: tektoncd-pipeline\nbranches:\n  - old\n\ntekton: x\n".toList)
      = editDoc demoEditorConfig
        "name: tektoncd-pipeline\nbranches:\n  - old\n\ntekton: x\n".toList :=
  branches_edit_idempotent demoEditorConfig
    "name: tektoncd-pipeline\nbranches:\n  - old\n\ntekton: x\n".toList (by decide)

/-- C4: the edit changes only the branches section.  When the header is
found at `p` (the index of the newline before `branches:`), every byte
before the header line is unchanged, and every byte from the next
blank-line boundary (`sectionEnd`) onward reappears unchanged right after
the freshly rendered section. -/
theorem branches_edit_frame (cfg : EditorConfig) (doc : List Char) (p : Nat)
    (h : findIdx doc nlBranches = some p) :
    (∀ i < p + 1, (editDoc cfg doc)[i]? = doc[i]?)
    ∧ (∀ j, (editDoc cfg doc)[(p + 1)
          + ("branches:".toList ++ '\n' :: renderedBlock cfg).length + j]?
        = doc[sectionEnd doc p + j]?) := by
  rw [editDoc_found cfg doc p h]
  have hple : p + 1 ≤ doc.length := by
    obtain ⟨hocc, -⟩ := findIdx_some_iff.mp h
    have := occursAt_length_le nlBranches_ne_nil hocc
    rw [nlBranches_length] at this
    omega
  have htlen : (doc.take (p + 1)).length = p + 1 := by
    simp only [List.length_take]
    omega
  constructor
  · intro i hi
    rw [List.append_assoc, List.getElem?_append, if_pos (by omega)]
    rw [List.getElem?_take, if_pos hi]
  · intro j
    have hlen2 : (doc.take (p + 1)
        ++ ("branches:".toList ++ '\n' :: renderedBlock cfg)).length
        = (p + 1) + ("branches:".toList ++ '\n' :: renderedBlock cfg).length := by
      simp [htlen]
    rw [List.getElem?_append_right (by rw [hlen2]; omega), hlen2,
      show (p + 1) + ("branches:".toList ++ '\n' :: renderedBlock cfg).length + j
          - ((p + 1) + ("branches:".toList ++ '\n' :: renderedBlock cfg).length) = j
        by omega,
      List.getElem?_drop]

theorem branches_edit_frame_witness :
    findIdx "name: x\nbranches:\n  - old\n\ntail: y\n".toList nlBranches = some 7
    ∧ (editDoc demoEditorConfig "name: x\nbranches:\n  - old\n\ntail: y\n".toList)[3]?
        = "name: x\nbranches:\n  - old\n\ntail: y\n".toList[3]?
    ∧ (editDoc demoEditorConfig "name: x\nbranches:\n  - old\n\ntail: y\n".toList)[8
          + ("branches:".toList ++ '\n' :: renderedBlock demoEditorConfig).length + 0]?
        = "name: x\nbranches:\n  - old\n\ntail: y\n".toList[
            sectionEnd "name: x\nbranches:\n  - old\n\ntail: y\n".toList 7 + 0]? := by
  refine ⟨by decide, ?_, ?_⟩
  · exact (branches_edit_frame demoEditorConfig
      "name: x\nbranches:\n  - old\n\ntail: y\n".toList 7 (by decide)).1 3 (by omega)
  · exact (branches_edit_frame demoEditorConfig
      "name: x\nbranches:\n  - old\n\ntail: y\n".toList 7 (by decide)).2 0

/-! ### C6: exactly one branches section after the edit -/

theorem occursAt_drop {s pat : List Char} {m j : Nat}
    (h : occursAt (s.drop m) pat j) : occursAt s pat (m + j) := by
  rw [occursAt, ← List.drop_drop]
  exact h

/-- In the canonical edited shape, `"\nbranches:"` starts a line exactly
once — at the inserted header — provided `suf` is occurrence-free, nothing
before the header matches, and the document does not begin with a
`branches:` line. -/
theorem onset_iff_unique (A B suf : List Char)
    (hBsp : nlSp B = true) (hBh : B.head? = some ' ')
    (hpre : ∀ i < A.length, ¬ occursAt (A ++ nlBranches ++ '\n' :: (B ++ suf)) nlBranches i)
    (h0 : ¬ "branches:".toList <+: A ++ nlBranches ++ '\n' :: (B ++ suf))
    (hsufocc : ∀ j, ¬ occursAt suf nlBranches j) :
    ∀ i, occursAt ('\n' :: (A ++ nlBranches ++ '\n' :: (B ++ suf))) nlBranches i
      ↔ i = A.length + 1 := by
  have hsh : A ++ nlBranches ++ '\n' :: (B ++ suf)
      = A ++ '\n' :: ("branches:".toList ++ '\n' :: (B ++ suf)) := by
    simp [nlBranches]
  intro i
  constructor
  · intro h
    by_contra hne
    rcases Nat.lt_or_ge i (A.length + 1) with hlt | hge
    · cases i with
      | zero =>
        refine h0 ?_
        rw [occursAt, List.drop_zero] at h
        exact (List.cons_prefix_cons.mp h).2
      | succ i' =>
        exact hpre i' (by omega) h
    · have h' : occursAt (A ++ nlBranches ++ '\n' :: (B ++ suf)) nlBranches (i - 1) := by
        rw [show i = (i - 1) + 1 by omega] at h
        exact h
      rw [hsh] at h'
      have h'' := occursAt_append_elim_right (by omega) h'
      exact no_nlB_after hBsp hBh hsufocc (i - 1 - A.length) (by omega) h''
  · rintro rfl
    rw [occursAt, List.drop_succ_cons,
      show A ++ nlBranches ++ '\n' :: (B ++ suf)
        = A ++ (nlBranches ++ '\n' :: (B ++ suf)) by simp [List.append_assoc],
      List.drop_left]
    exact ⟨'\n' :: (B ++ suf), rfl⟩

theorem sectionCount_eq_one {s : List Char} {k : Nat} (hk : k < s.length + 1)
    (h : ∀ i, occursAt ('\n' :: s) nlBranches i ↔ i = k) : sectionCount s = 1 := by
  unfold sectionCount
  have hfe : (Finset.range (s.length + 1)).filter
      (fun i => occursAt ('\n' :: s) nlBranches i) = {k} := by
    ext i
    simp only [Finset.mem_filter, Finset.mem_range, Finset.mem_singleton, h]
    constructor
    · rintro ⟨-, rfl⟩
      rfl
    · rintro rfl
      exact ⟨hk, rfl⟩
  rw [hfe, Finset.card_singleton]

theorem sectionCount_two_le {s : List Char} {a b : Nat} (hab : a ≠ b)
    (hoa : occursAt ('\n' :: s) nlBranches a) (hob : occursAt ('\n' :: s) nlBranches b) :
    2 ≤ sectionCount s := by
  have ha := occursAt_length_le nlBranches_ne_nil hoa
  have hb := occursAt_length_le nlBranches_ne_nil hob
  rw [nlBranches_length] at ha hb
  simp only [List.length_cons] at ha hb
  unfold sectionCount
  have hsub : ({a, b} : Finset ℕ) ⊆
      (Finset.range (s.length + 1)).filter (fun i => occursAt ('\n' :: s) nlBranches i) := by
    intro x hx
    rcases Finset.mem_insert.mp hx with rfl | hx
    · exact Finset.mem_filter.mpr ⟨Finset.mem_range.mpr (by omega), hoa⟩
    · rw [Finset.mem_singleton] at hx
      subst hx
      exact Finset.mem_filter.mpr ⟨Finset.mem_range.mpr (by omega), hob⟩
  calc 2 = ({a, b} : Finset ℕ).card := (Finset.card_pair hab).symm
    _ ≤ _ := Finset.card_le_card hsub

/-- C6, counterexample: a document whose only `branches:` section is at
the very start of the file is missed by the `"\nbranches:"` text search, so
the editor appends a second section: the result contains two `branches:`
headers at line starts. -/
theorem single_section_counterexample :
    sectionCount "branches: old\n".toList = 1
    ∧ sectionCount (editDoc demoUnknownConfig "branches: old\n".toList) = 2 := by
  exact ⟨by decide, by decide⟩

theorem not_occursAt_nil (j : Nat) : ¬ occursAt [] nlBranches j := by
  intro hj
  rw [occursAt, List.drop_nil] at hj
  exact nlBranches_ne_nil (List.prefix_nil.mp hj)

/-- In the canonical edited shape, the document does not begin with a
`branches:` line, as long as `A` is a prefix of a document that does not. -/
theorem edited_not_start {A rest doc : List Char} (hpre : A <+: doc)
    (hstart : ¬ "branches:".toList <+: doc) :
    ¬ "branches:".toList <+: A ++ '\n' :: rest := by
  intro hb
  have hocc0 : occursAt (A ++ '\n' :: rest) "branches:".toList 0 := by
    rw [occursAt, List.drop_zero]
    exact hb
  by_cases h9 : 9 ≤ A.length
  · have hin : occursAt A "branches:".toList 0 :=
      occursAt_of_append_left (by rw [hdrLen]; omega) hocc0
    rw [occursAt, List.drop_zero] at hin
    exact hstart (hin.trans hpre)
  · have hc := occursAt_getElem hocc0 A.length (by rw [hdrLen]; omega)
    rw [Nat.zero_add] at hc
    have hmid : (A ++ '\n' :: rest)[A.length]? = some '\n' := by
      rw [List.getElem?_append, if_neg (by omega)]
      simp
    rw [hmid] at hc
    exact hdr_no_nl A.length (by omega) hc.symm

/-- C6, amended: when the configured version strings are single-line,
the input document has at most one line-start `branches:` header, and any
such header is preceded by a newline (the document does not begin with
`branches:` — the editor's text search only finds newline-preceded
headers), the edited document has exactly one line-start `branches:`
header. -/
theorem single_section_amended (cfg : EditorConfig) (doc : List Char)
    (hnf : cfgNlFree cfg)
    (hstart : ¬ "branches:".toList <+: doc)
    (hcount : sectionCount doc ≤ 1) :
    sectionCount (editDoc cfg doc) = 1 := by
  obtain ⟨hBsp, hBh⟩ := renderedBlock_good hnf
  cases hfind : findIdx doc nlBranches with
  | none =>
    obtain ⟨A, hA, hpre⟩ := ensureNl_split doc
    have hAocc : ∀ i, ¬ occursAt A nlBranches i := fun i hocc =>
      findIdx_none_iff.mp hfind i (occursAt_of_pfx hpre hocc)
    have h1 : editDoc cfg doc = A ++ nlBranches ++ '\n' :: (renderedBlock cfg ++ []) := by
      simp only [editDoc, hfind]
      rw [hA]
      simp [nlBranches, List.append_assoc]
    have hsh : A ++ nlBranches ++ '\n' :: (renderedBlock cfg ++ [])
        = A ++ '\n' :: ("branches:".toList ++ '\n' :: (renderedBlock cfg ++ [])) := by
      simp [nlBranches]
    have hiff := onset_iff_unique A (renderedBlock cfg) [] hBsp hBh
      (by rw [hsh]; exact fun i hi => no_onset_before hAocc i hi)
      (by rw [hsh]; exact edited_not_start hpre hstart)
      not_occursAt_nil
    rw [h1]
    refine sectionCount_eq_one ?_ hiff
    have hBne : renderedBlock cfg ≠ [] := by
      intro hb
      rw [hb] at hBh
      simp at hBh
    simp only [List.length_append, List.length_cons, nlBranches_length, List.length_nil]
    omega
  | some p =>
    obtain ⟨hocc, hmin⟩ := findIdx_some_iff.mp hfind
    have hplen : p + 10 ≤ doc.length := by
      have := occursAt_length_le nlBranches_ne_nil hocc
      rw [nlBranches_length] at this
      omega
    have htplen : (doc.take p).length = p := by
      simp only [List.length_take]
      omega
    have hAocc : ∀ i, ¬ occursAt (doc.take p) nlBranches i := by
      intro i hocc'
      have hlen := occursAt_length_le nlBranches_ne_nil hocc'
      rw [nlBranches_length, htplen] at hlen
      exact hmin i (by omega) (occursAt_of_pfx ( List.take_prefix p doc) hocc')
    set suf := doc.drop (sectionEnd doc p) with hsufdef
    have hsufshape : suf = [] ∨ ∃ r, suf = '\n' :: '\n' :: r := by
      cases hnn : findIdx (doc.drop (p + 1)) nlnl with
      | none =>
        left
        rw [hsufdef, sectionEnd, hnn]
        simp only [Option.getD_none]
        apply List.drop_eq_nil_of_le
        simp only [List.length_drop]
        omega
      | some m =>
        right
        obtain ⟨hoccm, -⟩ := findIdx_some_iff.mp hnn
        obtain ⟨r, hr⟩ := hoccm
        refine ⟨r, ?_⟩
        rw [hsufdef, sectionEnd, hnn]
        simp only [Option.getD_some]
        rw [show p + m + 1 = (p + 1) + m by omega, ← List.drop_drop, ← hr]
        rfl
    have honset1 : occursAt ('\n' :: doc) nlBranches (p + 1) := hocc
    have huniq : ∀ i, occursAt ('\n' :: doc) nlBranches i → i = p + 1 := by
      intro i hi
      by_contra hne
      have := sectionCount_two_le hne hi honset1
      omega
    have hse : p + 1 ≤ sectionEnd doc p := by
      unfold sectionEnd
      omega
    have hsufocc : ∀ j, ¬ occursAt suf nlBranches j := by
      intro j hj
      rw [hsufdef] at hj
      have hd : occursAt doc nlBranches (sectionEnd doc p + j) := occursAt_drop hj
      have ho : occursAt ('\n' :: doc) nlBranches (sectionEnd doc p + j + 1) := hd
      have := huniq _ ho
      omega
    have htake : doc.take (p + 1) = doc.take p ++ ['\n'] := by
      rw [List.take_add]
      congr 1
      obtain ⟨t, ht⟩ := hocc
      rw [← ht]
      rfl
    have h1 : editDoc cfg doc
        = doc.take p ++ nlBranches ++ '\n' :: (renderedBlock cfg ++ suf) := by
      rw [editDoc_found cfg doc p hfind, htake, hsufdef]
      simp [nlBranches, List.append_assoc]
    have hsh : doc.take p ++ nlBranches ++ '\n' :: (renderedBlock cfg ++ suf)
        = doc.take p ++ '\n' :: ("branches:".toList ++ '\n' :: (renderedBlock cfg ++ suf)) := by
      simp [nlBranches]
    have hiff := onset_iff_unique (doc.take p) (renderedBlock cfg) suf hBsp hBh
      (by rw [hsh]; exact fun i hi => no_onset_before hAocc i hi)
      (by rw [hsh]; exact edited_not_start ( List.take_prefix p doc) hstart)
      hsufocc
    rw [h1]
    refine sectionCount_eq_one ?_ hiff
    simp only [List.length_append, List.length_cons, nlBranches_length, htplen]
    omega

theorem single_section_amended_witness :
    cfgNlFree demoEditorConfig
    ∧ ¬ "branches:".toList <+: "name: x\nbranches:\n  - old\n\ntail: y\n".toList
    ∧ sectionCount "name: x\nbranches:\n  - old\n\ntail: y\n".toList ≤ 1
    ∧ sectionCount (editDoc demoEditorConfig
        "name: x\nbranches:\n  - old\n\ntail: y\n".toList) = 1 := by
  refine ⟨by decide, by decide, by decide, ?_⟩
  exact single_section_amended demoEditorConfig
    "name: x\nbranches:\n  - old\n\ntail: y\n".toList (by decide) (by decide) (by decide)

theorem kustomization_not_idempotent_witness :
    (let c : RPAConfig := ⟨"1.19", "", [("cli", [])], ["stage"], []⟩
     updateKustomizationContent c (updateKustomizationContent c "resources:".toList)
       ≠ updateKustomizationContent c "resources:".toList) :=
  kustomization_not_idempotent ⟨"1.19", "", [("cli", [])], ["stage"], []⟩
    "resources:".toList (by decide) (by decide) (by decide) (by decide)

end ReleaseMCP

